import Mathlib

/-!
# goport/utils.go: Canceler, CancelFollower and CloseOnce

A shallow embedding of `deps/gocode/src/goport/utils.go`.

* Go calls are modelled as functions from the state they touch to an `Outcome`:
  the call returns (with the new state), blocks forever, or panics.
* `sync.Once` is a record holding its `done` flag; `Once.Do` runs the closure only
  while the flag is unset and sets the flag afterwards.
* A `chan struct{}` on which nothing is ever sent is a single `closed` flag:
  `close` panics on a closed channel, a receive returns at once on a closed
  channel and blocks on an open one.
* Pointers are addresses into a heap of allocated channels, `sync.Once` cells and
  `Canceler` structs.
-/

namespace Goport

/-! ## Outcomes of a call -/

/-- What a Go call does: it returns with a value, it blocks forever, or it panics. -/
inductive Outcome (α : Type) where
  | returns (a : α)
  | blocks
  | panics
  deriving DecidableEq, Repr

/-- Sequencing of calls: the second call runs only when the first one returned. -/
def Outcome.bind {α β : Type} (o : Outcome α) (k : α → Outcome β) : Outcome β :=
  match o with
  | .returns a => k a
  | .blocks => .blocks
  | .panics => .panics

/-- The returned value of a call, when the call returned. -/
def Outcome.val? {α : Type} : Outcome α → Option α
  | .returns a => some a
  | .blocks => none
  | .panics => none

/-! ## sync.Once -/

/-- The state of a `sync.Once`: whether `Do` has already run its closure.  The zero
value is `done := false`. -/
structure Once where
  done : Bool
  deriving DecidableEq, Repr

/-- Sequential `(*sync.Once).Do`: when the flag is unset, run the closure `f` on the
state `s` it captures and then set the flag; when the flag is set, do nothing.  A
closure that panics or blocks makes the call panic or block. -/
def Once.Do {σ : Type} (o : Once) (f : σ → Outcome σ) (s : σ) : Outcome (Once × σ) :=
  if o.done then .returns (o, s)
  else (f s).bind (fun s1 => .returns ({ done := true }, s1))

/-! ## CloseOnce -/

/-- The part of an `os.File` that `CloseOnce` touches.  `closeCalls` counts the
executions of the file's close operation; `closeResult k` is the error (`none` is
Go's nil error) that the close operation returns when `k` closes ran before it. -/
structure File (ε : Type) where
  closeCalls : Nat
  closeResult : Nat → Option ε

/-- One execution of `(*os.File).Close`: it returns its error and is counted. -/
def File.Close {ε : Type} (f : File ε) : Option ε × File ε :=
  (f.closeResult f.closeCalls, { f with closeCalls := f.closeCalls + 1 })

/-- Go: `type CloseOnce struct { *os.File; once sync.Once }`. -/
structure CloseOnce (ε : Type) where
  File : File ε
  once : Once

/-- Go: `func (c *CloseOnce) Close() error`:
```go
var err error
c.once.Do(func() { err = c.File.Close() })
return err
```
The closure captures the local `err` and the file. -/
def CloseOnce.Close {ε : Type} (c : CloseOnce ε) : Outcome (Option ε × CloseOnce ε) :=
  let err : Option ε := none
  (c.once.Do (fun (st : Option ε × Goport.File ε) => Outcome.returns st.2.Close)
      (err, c.File)).bind
    (fun r => .returns (r.2.1, { File := r.2.2, once := r.1 }))

/-- A sequence of `n` calls of `Close` on the same wrapper, one after the other; the
errors the calls returned are collected in call order. -/
def CloseOnce.closeN {ε : Type} : Nat → CloseOnce ε → Outcome (List (Option ε) × CloseOnce ε)
  | 0, c => .returns ([], c)
  | n + 1, c =>
    c.Close.bind (fun r => (closeN n r.2).bind (fun rs => .returns (r.1 :: rs.1, rs.2)))

/-- A file whose close always fails with error `5`, wrapped and not yet closed. -/
def failingWrapper : CloseOnce Nat :=
  { File := { closeCalls := 0, closeResult := fun _ => some 5 }, once := { done := false } }

/-! ## The heap: channels, sync.Once cells and Canceler structs -/

/-- A pointer (or a channel reference) is the address of a cell of the heap.  An
address at which nothing is allocated plays the part of nil. -/
structure Ptr (α : Type) where
  addr : Nat
  deriving DecidableEq, Repr

/-- A `chan struct{}` on which nothing is ever sent: all that can be observed of it
is whether it has been closed. -/
structure Chan where
  closed : Bool
  deriving DecidableEq, Repr

/-- Go: `type Canceler struct { cancel chan struct{}; cancelOnce *sync.Once;
done chan struct{}; doneOnce *sync.Once }`. -/
structure Canceler where
  cancel : Ptr Chan
  cancelOnce : Ptr Once
  done : Ptr Chan
  doneOnce : Ptr Once
  deriving DecidableEq, Repr

/-- Go: `type CancelFollower Canceler`: the same struct under another method set. -/
def CancelFollower : Type := Canceler

instance : DecidableEq CancelFollower := inferInstanceAs (DecidableEq Canceler)

instance : Repr CancelFollower := inferInstanceAs (Repr Canceler)

/-- The allocated channels, `sync.Once` cells and `Canceler` structs. -/
structure Heap where
  chans : List Chan
  onces : List Once
  cancelers : List Canceler
  deriving DecidableEq, Repr

/-- The heap before anything is allocated. -/
def Heap.empty : Heap := { chans := [], onces := [], cancelers := [] }

/-- Go: `make(chan struct{})`: allocate an open channel. -/
def Heap.makeChan (h : Heap) : Ptr Chan × Heap :=
  (⟨h.chans.length⟩, { h with chans := h.chans ++ [{ closed := false }] })

/-- Go: `&sync.Once{}`: allocate a `sync.Once` at its zero value. -/
def Heap.newOnce (h : Heap) : Ptr Once × Heap :=
  (⟨h.onces.length⟩, { h with onces := h.onces ++ [{ done := false }] })

/-- Go: `close(ch)`: panics on a nil channel and on a channel that is already closed. -/
def Heap.closeChan (h : Heap) (ch : Ptr Chan) : Outcome Heap :=
  match h.chans[ch.addr]? with
  | none => .panics
  | some c =>
    if c.closed then .panics
    else .returns { h with chans := h.chans.set ch.addr { closed := true } }

/-- Go: `<-ch` on a channel nobody sends on: returns at once when the channel is closed,
blocks when it is open or nil. -/
def Heap.recv (h : Heap) (ch : Ptr Chan) : Outcome Unit :=
  match h.chans[ch.addr]? with
  | none => .blocks
  | some c => if c.closed then .returns () else .blocks

/-- Go: `o.Do(f)` through a `*sync.Once`: a nil pointer panics; otherwise `Once.Do` runs
on the cell and the cell is written back. -/
def Heap.onceDo (h : Heap) (o : Ptr Once) (f : Heap → Outcome Heap) : Outcome Heap :=
  match h.onces[o.addr]? with
  | none => .panics
  | some once =>
    (once.Do f h).bind (fun r => .returns { r.2 with onces := r.2.onces.set o.addr r.1 })

/-- A channel is signaled when a receive on it does not block. -/
def Heap.signaled (h : Heap) (ch : Ptr Chan) : Bool :=
  decide (h.recv ch = .returns ())

/-! ## Canceler and CancelFollower -/

/-- Go: `func NewCanceler() *Canceler`: allocates the two channels and the two
`sync.Once` cells in the order of the struct literal, then the struct. -/
def NewCanceler (h : Heap) : Ptr Canceler × Heap :=
  let a := h.makeChan
  let b := a.2.newOnce
  let c := b.2.makeChan
  let d := c.2.newOnce
  (⟨d.2.cancelers.length⟩,
    { d.2 with cancelers := d.2.cancelers ++
        [{ cancel := a.1, cancelOnce := b.1, done := c.1, doneOnce := d.1 }] })

/-- Go: `func (c *Canceler) Cancel()`:
`c.cancelOnce.Do(func() { close(c.cancel) })`. -/
def Canceler.Cancel (c : Ptr Canceler) (h : Heap) : Outcome Heap :=
  match h.cancelers[c.addr]? with
  | none => .panics
  | some s => h.onceDo s.cancelOnce (fun h1 => h1.closeChan s.cancel)

/-- Go: `func (c *Canceler) Wait()`: `<-c.done`. -/
def Canceler.Wait (c : Ptr Canceler) (h : Heap) : Outcome Heap :=
  match h.cancelers[c.addr]? with
  | none => .panics
  | some s => (h.recv s.done).bind (fun _ => .returns h)

/-- Go: `func (c *Canceler) Follower() *CancelFollower`: `return (*CancelFollower)(c)`,
a conversion of the pointer; nothing is dereferenced. -/
def Canceler.Follower (c : Ptr Canceler) (h : Heap) : Outcome (Ptr CancelFollower × Heap) :=
  .returns (⟨c.addr⟩, h)

/-- Go: `func (f *CancelFollower) Done()`:
`f.doneOnce.Do(func() { close(f.done) })`. -/
def CancelFollower.Done (f : Ptr CancelFollower) (h : Heap) : Outcome Heap :=
  match h.cancelers[f.addr]? with
  | none => .panics
  | some s => h.onceDo s.doneOnce (fun h1 => h1.closeChan s.done)

/-- Go: `func (f *CancelFollower) Cancel() <-chan struct{}`: `return f.cancel`. -/
def CancelFollower.Cancel (f : Ptr CancelFollower) (h : Heap) : Outcome (Ptr Chan × Heap) :=
  match h.cancelers[f.addr]? with
  | none => .panics
  | some s => .returns (s.cancel, h)

/-- The cancellation signal as the follower observes it: the channel that
`CancelFollower.Cancel` returns is signaled. -/
def cancelSignaled (f : Ptr CancelFollower) (h : Heap) : Bool :=
  match CancelFollower.Cancel f h with
  | .returns r => r.2.signaled r.1
  | .blocks => false
  | .panics => false

/-- The completion signal as the controller observes it: `Wait` returns. -/
def doneSignaled (c : Ptr Canceler) (h : Heap) : Bool :=
  decide (Canceler.Wait c h = .returns h)

/-- One call of the API of the token. -/
inductive Call where
  | newCanceler
  | cancel (c : Ptr Canceler)
  | wait (c : Ptr Canceler)
  | follower (c : Ptr Canceler)
  | done (f : Ptr CancelFollower)
  | followerCancel (f : Ptr CancelFollower)
  deriving DecidableEq, Repr

/-- The effect of one call on the heap (the value it returns is dropped). -/
def Call.exec : Call → Heap → Outcome Heap
  | .newCanceler, h => .returns (NewCanceler h).2
  | .cancel c, h => Canceler.Cancel c h
  | .wait c, h => Canceler.Wait c h
  | .follower c, h => (Canceler.Follower c h).bind (fun r => .returns r.2)
  | .done f, h => CancelFollower.Done f h
  | .followerCancel f, h => (CancelFollower.Cancel f h).bind (fun r => .returns r.2)

/-- A sequence of calls, one after the other; it returns when every call returned. -/
def run : List Call → Heap → Outcome Heap
  | [], h => .returns h
  | k :: ks, h => (k.exec h).bind (run ks)

/-- The heaps the program can be in: those that some sequence of calls that all
returned produces from the empty heap. -/
def Reachable (h : Heap) : Prop := ∃ ks, run ks Heap.empty = .returns h

/-- A pointer to a `Canceler` that `NewCanceler` returned in this heap. -/
def Heap.live (h : Heap) (c : Ptr Canceler) : Prop := c.addr < h.cancelers.length

instance (h : Heap) (c : Ptr Canceler) : Decidable (h.live c) :=
  inferInstanceAs (Decidable (c.addr < h.cancelers.length))

/-- Set the signal at address `j`: the channel is closed and its `sync.Once` done. -/
def Heap.mark (h : Heap) (j : Nat) : Heap :=
  { h with chans := h.chans.set j { closed := true },
           onces := h.onces.set j { done := true } }

/-- The struct that the `i`-th call of `NewCanceler` builds. -/
def Canceler.nth (i : Nat) : Canceler :=
  { cancel := ⟨2 * i⟩, cancelOnce := ⟨2 * i⟩, done := ⟨2 * i + 1⟩, doneOnce := ⟨2 * i + 1⟩ }

/-- The shape of every reachable heap: the `i`-th `Canceler` owns the channels and
`sync.Once` cells at addresses `2 * i` (cancel) and `2 * i + 1` (done), and a channel
is closed exactly when its `sync.Once` is done. -/
def Heap.WF (h : Heap) : Prop :=
  h.chans.length = 2 * h.cancelers.length ∧
  h.onces.length = 2 * h.cancelers.length ∧
  (∀ (i : Nat) (s : Canceler), h.cancelers[i]? = some s → s = Canceler.nth i) ∧
  (∀ (j : Nat) (c : Chan) (o : Once),
    h.chans[j]? = some c → h.onces[j]? = some o → c.closed = o.done)

/-- The heap after a single call of `NewCanceler`; its token is at address 0. -/
def oneToken : Heap := (NewCanceler Heap.empty).2

/-- The address of the signal that a call sets, for the calls that set one. -/
def Call.marks : Call → Option Nat
  | .cancel c => some (2 * c.addr)
  | .done f => some (2 * f.addr + 1)
  | _ => none

/-! ## Concurrent calls of CloseOnce.Close

`N` goroutines each run `CloseOnce.Close` on the same wrapper.  `sync.Once.Do` is
```go
func (o *Once) Do(f func()) {
	if o.done.Load() == 0 { o.doSlow(f) }
}
func (o *Once) doSlow(f func()) {
	o.m.Lock()
	defer o.m.Unlock()
	if o.done.Load() == 0 {
		defer o.done.Store(1)
		f()
	}
}
```
and every load, store, lock, unlock and the file close is one atomic step of one
goroutine; an interleaving is the list of the goroutines that take the steps. -/

/-- Where a goroutine that runs `CloseOnce.Close` stands. -/
inductive Pc where
  /-- The local `err` is nil; next: the load of `o.done` on the fast path of `Do`. -/
  | start
  /-- In `doSlow`; next: `o.m.Lock()`. -/
  | lock
  /-- Holds `o.m`; next: the second load of `o.done`, and `f()` when it is unset. -/
  | locked
  /-- Holds `o.m`, `f()` has run; next: the deferred `o.done.Store(1)`. -/
  | ran
  /-- Holds `o.m`; next: the deferred `o.m.Unlock()`, then `return err`. -/
  | unlock
  /-- The call of `Close` has returned `err`. -/
  | returned
  deriving DecidableEq, Repr

/-- One goroutine in `CloseOnce.Close`: where it stands and its local `err`. -/
structure Goroutine (ε : Type) where
  pc : Pc
  err : Option ε

/-- The wrapper shared by `N` goroutines: the file, the `done` flag and the mutex of
its `sync.Once`, and the goroutines. -/
structure Conc (ε : Type) (N : Nat) where
  File : File ε
  done : Bool
  mu : Bool
  calls : Fin N → Goroutine ε

/-- The state of `N` goroutines about to call `Close` on the wrapper `c`; the mutex is free. -/
def Conc.init {ε : Type} (N : Nat) (c : CloseOnce ε) : Conc ε N :=
  { File := c.File, done := c.once.done, mu := false,
    calls := fun _ => { pc := .start, err := none } }

/-- One step of goroutine `i`.  A goroutine that waits for the mutex, or that has
returned, leaves the state as it is. -/
def Conc.step {ε : Type} {N : Nat} (s : Conc ε N) (i : Fin N) : Conc ε N :=
  match (s.calls i).pc with
  | .start =>
    if s.done then
      { s with calls := Function.update s.calls i { s.calls i with pc := .returned } }
    else
      { s with calls := Function.update s.calls i { s.calls i with pc := .lock } }
  | .lock =>
    if s.mu then s
    else { s with mu := true,
                  calls := Function.update s.calls i { s.calls i with pc := .locked } }
  | .locked =>
    if s.done then
      { s with calls := Function.update s.calls i { s.calls i with pc := .unlock } }
    else
      { s with File := s.File.Close.2,
               calls := Function.update s.calls i { pc := .ran, err := s.File.Close.1 } }
  | .ran =>
    { s with done := true,
             calls := Function.update s.calls i { s.calls i with pc := .unlock } }
  | .unlock =>
    { s with mu := false,
             calls := Function.update s.calls i { s.calls i with pc := .returned } }
  | .returned => s

/-- An interleaving: the goroutines take their steps in the order of the list. -/
def Conc.run {ε : Type} {N : Nat} (s : Conc ε N) : List (Fin N) → Conc ε N
  | [] => s
  | i :: is => (s.step i).run is

/-- Every one of the `N` calls has returned. -/
def Conc.finished {ε : Type} {N : Nat} (s : Conc ε N) : Prop :=
  ∀ i, (s.calls i).pc = .returned

instance {ε : Type} {N : Nat} (s : Conc ε N) : Decidable s.finished :=
  inferInstanceAs (Decidable (∀ i, (s.calls i).pc = .returned))

/-- The goroutine holds the mutex of the `sync.Once`. -/
def Pc.holds : Pc → Bool
  | .locked => true
  | .ran => true
  | .unlock => true
  | _ => false

/-- The number of steps a goroutine has at most left. -/
def Pc.rank : Pc → Nat
  | .start => 5
  | .lock => 4
  | .locked => 3
  | .ran => 2
  | .unlock => 1
  | .returned => 0

/-- The number of steps the goroutines have at most left, all together. -/
def Conc.fuel {ε : Type} {N : Nat} (s : Conc ε N) : Nat :=
  ∑ i, (s.calls i).pc.rank

/-- The mutex is locked exactly when a goroutine holds it, and at most one does. -/
def MutexInv {ε : Type} {N : Nat} (mu : Bool) (calls : Fin N → Goroutine ε) : Prop :=
  (mu = true ↔ ∃ i, (calls i).pc.holds = true) ∧
  ∀ i j, (calls i).pc.holds = true → (calls j).pc.holds = true → i = j

/-- Before the file is closed: `done` is unset, no goroutine is past `f()` and every
`err` is nil. -/
def PhaseA {ε : Type} {N : Nat} (c : CloseOnce ε) (F : File ε) (d : Bool)
    (calls : Fin N → Goroutine ε) : Prop :=
  F = c.File ∧ d = false ∧
  ∀ j, (calls j).err = none ∧
    ((calls j).pc = .start ∨ (calls j).pc = .lock ∨ (calls j).pc = .locked)

/-- After the file is closed: one goroutine `w` ran the close and holds its result in
`err`, every other `err` is nil, and while `done` is unset `w` still holds the mutex
at `ran`. -/
def PhaseB {ε : Type} {N : Nat} (c : CloseOnce ε) (F : File ε) (d : Bool)
    (calls : Fin N → Goroutine ε) : Prop :=
  F = c.File.Close.2 ∧
  ∃ w, (calls w).err = c.File.Close.1 ∧
    ((calls w).pc = .ran ∨ (calls w).pc = .unlock ∨ (calls w).pc = .returned) ∧
    (d = false → (calls w).pc = .ran) ∧
    ∀ j, j ≠ w → (calls j).err = none ∧ (calls j).pc ≠ .ran

/-- The invariant of the interleavings that start from the wrapper `c`. -/
def Conc.Inv {ε : Type} {N : Nat} (c : CloseOnce ε) (s : Conc ε N) : Prop :=
  MutexInv s.mu s.calls ∧ (PhaseA c s.File s.done s.calls ∨ PhaseB c s.File s.done s.calls)

/-! ## Helper lemmas: CloseOnce -/

theorem CloseOnce.Close_fresh {ε : Type} (c : CloseOnce ε) (h : c.once.done = false) :
    c.Close = .returns (c.File.closeResult c.File.closeCalls,
      { File := { c.File with closeCalls := c.File.closeCalls + 1 },
        once := { done := true } }) := by
  simp [CloseOnce.Close, Once.Do, h, Outcome.bind, File.Close]

theorem CloseOnce.Close_done {ε : Type} (c : CloseOnce ε) (h : c.once.done = true) :
    c.Close = .returns (none, c) := by
  simp [CloseOnce.Close, Once.Do, h, Outcome.bind]

theorem CloseOnce.closeN_done {ε : Type} (n : Nat) (c : CloseOnce ε)
    (h : c.once.done = true) :
    CloseOnce.closeN n c = .returns (List.replicate n none, c) := by
  induction n with
  | zero => rfl
  | succ n ih =>
    simp [CloseOnce.closeN, CloseOnce.Close_done c h, ih, Outcome.bind, List.replicate_succ]

theorem CloseOnce.closeN_fresh {ε : Type} (n : Nat) (c : CloseOnce ε)
    (h : c.once.done = false) :
    CloseOnce.closeN (n + 1) c =
      .returns (c.File.closeResult c.File.closeCalls :: List.replicate n none,
        { File := { c.File with closeCalls := c.File.closeCalls + 1 },
          once := { done := true } }) := by
  have hd := CloseOnce.closeN_done n
    ({ File := { c.File with closeCalls := c.File.closeCalls + 1 },
       once := { done := true } } : CloseOnce ε) rfl
  simp [CloseOnce.closeN, CloseOnce.Close_fresh c h, Outcome.bind, hd]

/-! ## Helper lemmas: the heap -/

theorem set_same {α : Type} (l : List α) (j : Nat) (a : α) (h : l[j]? = some a) :
    l.set j a = l := by
  apply List.ext_getElem?
  intro n
  by_cases hn : j = n
  · subst hn
    rw [List.getElem?_set]
    have hlt : j < l.length := by
      rcases List.getElem?_eq_some.mp h with ⟨hl, _⟩
      exact hl
    simp [hlt, h]
  · rw [List.getElem?_set_ne hn]

theorem Heap.mark_mark (h : Heap) (j : Nat) : (h.mark j).mark j = h.mark j := by
  simp [Heap.mark, List.set_set]

theorem Heap.onceDo_closeChan (h : Heap) (hwf : h.WF) (j : Nat) (hj : j < h.chans.length) :
    h.onceDo ⟨j⟩ (fun h1 => h1.closeChan ⟨j⟩) = .returns (h.mark j) := by
  obtain ⟨hc, ho, _, hsync⟩ := hwf
  have hjo : j < h.onces.length := by omega
  have hcj : h.chans[j]? = some (h.chans[j]) := List.getElem?_eq_getElem hj
  have hoj : h.onces[j]? = some (h.onces[j]) := List.getElem?_eq_getElem hjo
  have heq := hsync j _ _ hcj hoj
  cases hd : (h.onces[j]).done with
  | true =>
    have hcl : (h.chans[j]).closed = true := by rw [heq, hd]
    have e1 : h.onces[j] = { done := true } := by
      cases hx : h.onces[j]; simp [hx] at hd; simp [hd]
    have e2 : h.chans[j] = { closed := true } := by
      cases hx : h.chans[j]; simp [hx] at hcl; simp [hcl]
    have s1 : h.onces.set j { done := true } = h.onces := set_same _ _ _ (by rw [hoj, e1])
    have s2 : h.chans.set j { closed := true } = h.chans := set_same _ _ _ (by rw [hcj, e2])
    simp only [Heap.onceDo, hoj, Once.Do, hd, Outcome.bind, Heap.mark, s1, s2, e1]
    simp [s1]
  | false =>
    have hcl : (h.chans[j]).closed = false := by rw [heq, hd]
    simp [Heap.onceDo, hoj, Once.Do, hd, Outcome.bind, Heap.closeChan, hcj, hcl, Heap.mark]

theorem Heap.WF_cancelers (h : Heap) (hwf : h.WF) (i : Nat) (hi : i < h.cancelers.length) :
    h.cancelers[i]? = some (Canceler.nth i) := by
  have h1 : h.cancelers[i]? = some (h.cancelers[i]) := List.getElem?_eq_getElem hi
  rw [h1, ← hwf.2.2.1 i _ h1]

theorem Canceler.Cancel_eq_mark (h : Heap) (hwf : h.WF) (c : Ptr Canceler) (hc : h.live c) :
    Canceler.Cancel c h = .returns (h.mark (2 * c.addr)) := by
  have hlen := hwf.1
  unfold Heap.live at hc
  simp only [Canceler.Cancel, Heap.WF_cancelers h hwf c.addr hc, Canceler.nth]
  exact Heap.onceDo_closeChan h hwf (2 * c.addr) (by omega)

theorem CancelFollower.Done_eq (h : Heap) (hwf : h.WF) (f : Ptr CancelFollower)
    (hf : f.addr < h.cancelers.length) :
    CancelFollower.Done f h = .returns (h.mark (2 * f.addr + 1)) := by
  have hlen := hwf.1
  simp only [CancelFollower.Done, Heap.WF_cancelers h hwf f.addr hf, Canceler.nth]
  exact Heap.onceDo_closeChan h hwf (2 * f.addr + 1) (by omega)

theorem Heap.WF_mark (h : Heap) (hwf : h.WF) (j : Nat) : (h.mark j).WF := by
  obtain ⟨hc, ho, hl, hsync⟩ := hwf
  refine ⟨by simpa [Heap.mark] using hc, by simpa [Heap.mark] using ho,
    by simpa [Heap.mark] using hl, ?_⟩
  intro k c o h1 h2
  simp only [Heap.mark] at h1 h2
  by_cases hk : j = k
  · subst hk
    rw [List.getElem?_set] at h1 h2
    simp only [if_true] at h1 h2
    split at h1
    · split at h2
      · cases h1; cases h2; rfl
      · cases h2
    · cases h1
  · rw [List.getElem?_set_ne hk] at h1 h2
    exact hsync k c o h1 h2

theorem Heap.WF_empty : Heap.empty.WF := by
  refine ⟨rfl, rfl, ?_, ?_⟩
  · intro i s h; simp [Heap.empty] at h
  · intro j c o h; simp [Heap.empty] at h

theorem NewCanceler_eq (h : Heap) :
    NewCanceler h = (⟨h.cancelers.length⟩,
      { chans := h.chans ++ [{ closed := false }, { closed := false }],
        onces := h.onces ++ [{ done := false }, { done := false }],
        cancelers := h.cancelers ++
          [Canceler.mk ⟨h.chans.length⟩ ⟨h.onces.length⟩ ⟨h.chans.length + 1⟩
            ⟨h.onces.length + 1⟩] }) := by
  simp [NewCanceler, Heap.makeChan, Heap.newOnce]

theorem Heap.signaled_iff (h : Heap) (ch : Ptr Chan) :
    h.signaled ch = true ↔ h.chans[ch.addr]? = some { closed := true } := by
  unfold Heap.signaled Heap.recv
  cases hx : h.chans[ch.addr]? with
  | none => simp
  | some c =>
    cases c with
    | mk b => cases b <;> simp

theorem Heap.WF_new (h : Heap) (hwf : h.WF) : (NewCanceler h).2.WF := by
  obtain ⟨hc, ho, hl, hsync⟩ := hwf
  rw [NewCanceler_eq]
  refine ⟨by simp; omega, by simp; omega, ?_, ?_⟩
  · intro i s hs
    simp only at hs
    by_cases hi : i < h.cancelers.length
    · rw [List.getElem?_append_left hi] at hs
      exact hl i s hs
    · rw [List.getElem?_append_right (by omega)] at hs
      have hi0 : i - h.cancelers.length = 0 := by
        by_contra hne
        have : (i - h.cancelers.length) = (i - h.cancelers.length - 1) + 1 := by omega
        rw [this] at hs
        simp at hs
      rw [hi0] at hs
      simp only [List.getElem?_cons_zero, Option.some.injEq] at hs
      have hi1 : i = h.cancelers.length := by omega
      rw [← hs, hc, ho, hi1]
      rfl
  · intro j c o h1 h2
    simp only at h1 h2
    by_cases hj : j < h.chans.length
    · rw [List.getElem?_append_left hj] at h1
      rw [List.getElem?_append_left (by omega)] at h2
      exact hsync j c o h1 h2
    · rw [List.getElem?_append_right (by omega)] at h1
      rw [List.getElem?_append_right (by omega)] at h2
      rw [ho, ← hc] at h2
      generalize j - h.chans.length = m at h1 h2
      match m, h1, h2 with
      | 0, h1, h2 =>
        simp at h1 h2; rw [← h1, ← h2]
      | 1, h1, h2 =>
        simp at h1 h2; rw [← h1, ← h2]
      | m + 2, h1, h2 => simp at h1

/-- What each call does to a well-formed heap when it returns. -/
theorem Call.exec_spec (k : Call) (h h1 : Heap) (hwf : h.WF) (hk : k.exec h = .returns h1) :
    (k = .newCanceler ∧ h1 = (NewCanceler h).2) ∨
    (∃ j, k.marks = some j ∧ j < h.chans.length ∧ h1 = h.mark j) ∨
    (k.marks = none ∧ h1 = h) := by
  have hlen := hwf.1
  cases k with
  | newCanceler =>
    left
    simp [Call.exec] at hk
    exact ⟨rfl, hk.symm⟩
  | cancel c =>
    right; left
    by_cases hc : c.addr < h.cancelers.length
    · have e := Canceler.Cancel_eq_mark h hwf c hc
      simp only [Call.exec, e, Outcome.returns.injEq] at hk
      exact ⟨2 * c.addr, rfl, by omega, hk.symm⟩
    · have hn : h.cancelers[c.addr]? = none := List.getElem?_eq_none (by omega)
      simp [Call.exec, Canceler.Cancel, hn] at hk
  | done f =>
    right; left
    by_cases hc : f.addr < h.cancelers.length
    · have e := CancelFollower.Done_eq h hwf f hc
      simp only [Call.exec, e, Outcome.returns.injEq] at hk
      exact ⟨2 * f.addr + 1, rfl, by omega, hk.symm⟩
    · have hn : h.cancelers[f.addr]? = none := List.getElem?_eq_none (by omega)
      simp [Call.exec, CancelFollower.Done, hn] at hk
  | wait c =>
    right; right
    refine ⟨rfl, ?_⟩
    simp only [Call.exec, Canceler.Wait] at hk
    split at hk
    · cases hk
    · cases hr : h.recv (Canceler.done ‹Canceler›) with
      | returns u => rw [hr] at hk; simp [Outcome.bind] at hk; exact hk.symm
      | blocks => rw [hr] at hk; simp [Outcome.bind] at hk
      | panics => rw [hr] at hk; simp [Outcome.bind] at hk
  | follower c =>
    right; right
    simp [Call.exec, Canceler.Follower, Outcome.bind] at hk
    exact ⟨rfl, hk.symm⟩
  | followerCancel f =>
    right; right
    refine ⟨rfl, ?_⟩
    simp only [Call.exec, CancelFollower.Cancel] at hk
    split at hk
    · cases hk
    · simp [Outcome.bind] at hk; exact hk.symm

theorem Call.exec_WF (k : Call) (h h1 : Heap) (hwf : h.WF) (hk : k.exec h = .returns h1) :
    h1.WF := by
  rcases Call.exec_spec k h h1 hwf hk with ⟨_, e⟩ | ⟨j, _, _, e⟩ | ⟨_, e⟩
  · rw [e]; exact Heap.WF_new h hwf
  · rw [e]; exact Heap.WF_mark h hwf j
  · rw [e]; exact hwf

theorem run_cons (k : Call) (ks : List Call) (h h2 : Heap)
    (hr : run (k :: ks) h = .returns h2) :
    ∃ h1, k.exec h = .returns h1 ∧ run ks h1 = .returns h2 := by
  simp only [run] at hr
  cases he : k.exec h with
  | returns h1 => rw [he] at hr; exact ⟨h1, rfl, hr⟩
  | blocks => rw [he] at hr; simp [Outcome.bind] at hr
  | panics => rw [he] at hr; simp [Outcome.bind] at hr

theorem run_append (ks ls : List Call) (h : Heap) :
    run (ks ++ ls) h = (run ks h).bind (run ls) := by
  induction ks generalizing h with
  | nil => rfl
  | cons k ks ih =>
    simp only [List.cons_append, run]
    cases he : k.exec h with
    | returns h1 => simp [Outcome.bind, ih]
    | blocks => rfl
    | panics => rfl

theorem run_WF (ks : List Call) (h h2 : Heap) (hwf : h.WF) (hr : run ks h = .returns h2) :
    h2.WF := by
  induction ks generalizing h with
  | nil => simp [run] at hr; rw [← hr]; exact hwf
  | cons k ks ih =>
    obtain ⟨h1, he, hr1⟩ := run_cons k ks h h2 hr
    exact ih h1 (Call.exec_WF k h h1 hwf he) hr1

theorem Reachable_WF {h : Heap} (hr : Reachable h) : h.WF := by
  obtain ⟨ks, hks⟩ := hr
  exact run_WF ks Heap.empty h Heap.WF_empty hks

theorem Heap.mark_chans_self (h : Heap) (j : Nat) (hj : j < h.chans.length) :
    (h.mark j).chans[j]? = some { closed := true } := by
  simp [Heap.mark, List.getElem?_set, hj]

theorem Heap.mark_chans_ne (h : Heap) (j k : Nat) (hjk : j ≠ k) :
    (h.mark j).chans[k]? = h.chans[k]? := by
  simp [Heap.mark, List.getElem?_set_ne hjk]

theorem Heap.mark_chans_mono (h : Heap) (j k : Nat)
    (hk : h.chans[k]? = some { closed := true }) :
    (h.mark j).chans[k]? = some { closed := true } := by
  by_cases hjk : j = k
  · subst hjk
    have hlt : j < h.chans.length := by
      rcases List.getElem?_eq_some.mp hk with ⟨hl, _⟩
      exact hl
    exact Heap.mark_chans_self h j hlt
  · rw [Heap.mark_chans_ne h j k hjk]; exact hk

theorem NewCanceler_chans_old (h : Heap) (j : Nat) (hj : j < h.chans.length) :
    (NewCanceler h).2.chans[j]? = h.chans[j]? := by
  rw [NewCanceler_eq]
  exact List.getElem?_append_left hj

theorem NewCanceler_chans_new (h : Heap) (hwf : h.WF) :
    (NewCanceler h).2.chans[2 * (NewCanceler h).1.addr]? = some { closed := false } ∧
    (NewCanceler h).2.chans[2 * (NewCanceler h).1.addr + 1]? = some { closed := false } := by
  have hc := hwf.1
  rw [NewCanceler_eq]
  simp only
  rw [← hc]
  constructor
  · rw [List.getElem?_append_right (le_refl _)]; simp
  · rw [List.getElem?_append_right (by omega)]; simp

theorem NewCanceler_live (h : Heap) : (NewCanceler h).2.live (NewCanceler h).1 := by
  rw [NewCanceler_eq]
  simp [Heap.live]

/-- A call that returns leaves every channel it does not mark as it was. -/
theorem Call.exec_chans_frame (k : Call) (h h1 : Heap) (hwf : h.WF)
    (hk : k.exec h = .returns h1) (j : Nat) (hj : j < h.chans.length)
    (hm : k.marks ≠ some j) : h1.chans[j]? = h.chans[j]? := by
  rcases Call.exec_spec k h h1 hwf hk with ⟨_, e⟩ | ⟨i, hi, _, e⟩ | ⟨_, e⟩
  · rw [e]; exact NewCanceler_chans_old h j hj
  · rw [e]
    apply Heap.mark_chans_ne
    intro hij
    apply hm
    rw [hi, hij]
  · rw [e]

/-- A call that returns never reopens a closed channel. -/
theorem Call.exec_chans_mono (k : Call) (h h1 : Heap) (hwf : h.WF)
    (hk : k.exec h = .returns h1) (j : Nat) (hj : h.chans[j]? = some { closed := true }) :
    h1.chans[j]? = some { closed := true } := by
  have hlt : j < h.chans.length := by
    rcases List.getElem?_eq_some.mp hj with ⟨hl, _⟩
    exact hl
  rcases Call.exec_spec k h h1 hwf hk with ⟨_, e⟩ | ⟨i, _, _, e⟩ | ⟨_, e⟩
  · rw [e, NewCanceler_chans_old h j hlt]; exact hj
  · rw [e]; exact Heap.mark_chans_mono h i j hj
  · rw [e]; exact hj

/-- A call that returns removes no `Canceler` from the heap. -/
theorem Call.exec_live (k : Call) (h h1 : Heap) (hwf : h.WF)
    (hk : k.exec h = .returns h1) (c : Ptr Canceler) (hc : h.live c) : h1.live c := by
  unfold Heap.live at *
  rcases Call.exec_spec k h h1 hwf hk with ⟨_, e⟩ | ⟨i, _, _, e⟩ | ⟨_, e⟩
  · rw [e, NewCanceler_eq]; simp; omega
  · rw [e]; simpa [Heap.mark] using hc
  · rw [e]; exact hc

theorem run_chans_mono (ks : List Call) (h h2 : Heap) (hwf : h.WF)
    (hr : run ks h = .returns h2) (j : Nat) (hj : h.chans[j]? = some { closed := true }) :
    h2.chans[j]? = some { closed := true } := by
  induction ks generalizing h with
  | nil => simp [run] at hr; rw [← hr]; exact hj
  | cons k ks ih =>
    obtain ⟨h1, he, hr1⟩ := run_cons k ks h h2 hr
    exact ih h1 (Call.exec_WF k h h1 hwf he) hr1 (Call.exec_chans_mono k h h1 hwf he j hj)

theorem run_live (ks : List Call) (h h2 : Heap) (hwf : h.WF)
    (hr : run ks h = .returns h2) (c : Ptr Canceler) (hc : h.live c) : h2.live c := by
  induction ks generalizing h with
  | nil => simp [run] at hr; rw [← hr]; exact hc
  | cons k ks ih =>
    obtain ⟨h1, he, hr1⟩ := run_cons k ks h h2 hr
    exact ih h1 (Call.exec_WF k h h1 hwf he) hr1 (Call.exec_live k h h1 hwf he c hc)

theorem run_chans_frame (ks : List Call) (h h2 : Heap) (hwf : h.WF)
    (hr : run ks h = .returns h2) (j : Nat) (hj : j < h.chans.length)
    (hm : ∀ k ∈ ks, k.marks ≠ some j) : h2.chans[j]? = h.chans[j]? := by
  induction ks generalizing h with
  | nil => simp [run] at hr; rw [← hr]
  | cons k ks ih =>
    obtain ⟨h1, he, hr1⟩ := run_cons k ks h h2 hr
    have hf := Call.exec_chans_frame k h h1 hwf he j hj (hm k (List.mem_cons_self _ _))
    have hj1 : j < h1.chans.length := by
      have h0 : h.chans[j]? = some (h.chans[j]) := List.getElem?_eq_getElem hj
      rw [h0] at hf
      rcases List.getElem?_eq_some.mp hf with ⟨hl, _⟩
      exact hl
    rw [ih h1 (Call.exec_WF k h h1 hwf he) hr1 hj1
      (fun k1 hk1 => hm k1 (List.mem_cons_of_mem _ hk1)), hf]

theorem cancelSignaled_iff (h : Heap) (hwf : h.WF) (f : Ptr CancelFollower)
    (hf : f.addr < h.cancelers.length) :
    cancelSignaled f h = true ↔ h.chans[2 * f.addr]? = some { closed := true } := by
  simp only [cancelSignaled, CancelFollower.Cancel, Heap.WF_cancelers h hwf f.addr hf]
  exact Heap.signaled_iff h _

theorem Canceler.Wait_closed (h : Heap) (hwf : h.WF) (c : Ptr Canceler) (hc : h.live c)
    (hd : h.chans[2 * c.addr + 1]? = some { closed := true }) :
    Canceler.Wait c h = .returns h := by
  simp [Canceler.Wait, Heap.WF_cancelers h hwf c.addr hc, Canceler.nth, Heap.recv, hd,
    Outcome.bind]

theorem Canceler.Wait_open (h : Heap) (hwf : h.WF) (c : Ptr Canceler) (hc : h.live c)
    (hd : h.chans[2 * c.addr + 1]? = some { closed := false }) :
    Canceler.Wait c h = .blocks := by
  simp [Canceler.Wait, Heap.WF_cancelers h hwf c.addr hc, Canceler.nth, Heap.recv, hd,
    Outcome.bind]

theorem run_replicate_fix (k : Call) (h : Heap) (hk : k.exec h = .returns h) (n : Nat) :
    run (List.replicate n k) h = .returns h := by
  induction n with
  | zero => rfl
  | succ n ih => simp [List.replicate_succ, run, hk, Outcome.bind, ih]

theorem Heap.chan_exists (h : Heap) (j : Nat) (hj : j < h.chans.length) :
    ∃ b, h.chans[j]? = some { closed := b } := by
  refine ⟨(h.chans[j]).closed, ?_⟩
  rw [List.getElem?_eq_getElem hj]

theorem doneSignaled_of (h : Heap) (hwf : h.WF) (c : Ptr Canceler) (hc : h.live c) (b : Bool)
    (hd : h.chans[2 * c.addr + 1]? = some { closed := b }) : doneSignaled c h = b := by
  cases b with
  | true => simp [doneSignaled, Canceler.Wait_closed h hwf c hc hd]
  | false => simp [doneSignaled, Canceler.Wait_open h hwf c hc hd]

theorem cancelSignaled_of (h : Heap) (hwf : h.WF) (f : Ptr CancelFollower)
    (hf : f.addr < h.cancelers.length) (b : Bool)
    (hd : h.chans[2 * f.addr]? = some { closed := b }) : cancelSignaled f h = b := by
  cases b with
  | true => exact (cancelSignaled_iff h hwf f hf).mpr hd
  | false =>
    cases hx : cancelSignaled f h with
    | false => rfl
    | true =>
      have := (cancelSignaled_iff h hwf f hf).mp hx
      rw [hd] at this
      simp at this

theorem CancelFollower.Cancel_returns (h : Heap) (hwf : h.WF) (f : Ptr CancelFollower)
    (hf : f.addr < h.cancelers.length) :
    CancelFollower.Cancel f h = .returns (⟨2 * f.addr⟩, h) := by
  simp [CancelFollower.Cancel, Heap.WF_cancelers h hwf f.addr hf, Canceler.nth]

/-! ## The claims -/

/-- C4: in every reachable heap and for every token `c` that `NewCanceler` returned,
`Canceler.Cancel` returns (it does not panic and does not block), a second `Cancel`
returns and leaves the heap as the first one left it, the cancellation signal is then
set, and `n + 1` calls of `Cancel` in a row leave the heap as a single call does. -/
theorem C4_cancel_idempotent (h : Heap) (hr : Reachable h) (c : Ptr Canceler)
    (hc : h.live c) :
    ∃ h1, Canceler.Cancel c h = .returns h1 ∧ Canceler.Cancel c h1 = .returns h1 ∧
      cancelSignaled ⟨c.addr⟩ h1 = true ∧
      ∀ n, run (List.replicate (n + 1) (Call.cancel c)) h = .returns h1 := by
  have hwf := Reachable_WF hr
  have hwf1 := Heap.WF_mark h hwf (2 * c.addr)
  have hc1 : (h.mark (2 * c.addr)).live c := by simpa [Heap.live, Heap.mark] using hc
  have e1 := Canceler.Cancel_eq_mark h hwf c hc
  have e2 : Canceler.Cancel c (h.mark (2 * c.addr)) = .returns (h.mark (2 * c.addr)) := by
    rw [Canceler.Cancel_eq_mark _ hwf1 c hc1, Heap.mark_mark]
  have hlen := hwf.1
  unfold Heap.live at hc
  refine ⟨h.mark (2 * c.addr), e1, e2, ?_, ?_⟩
  · rw [cancelSignaled_iff _ hwf1 ⟨c.addr⟩ hc1]
    exact Heap.mark_chans_self h _ (by omega)
  · intro n
    simp only [List.replicate_succ, run, Call.exec, e1, Outcome.bind]
    exact run_replicate_fix (.cancel c) _ e2 n

/-- C4 at the token of a single `NewCanceler`. -/
theorem C4_cancel_idempotent_witness :
    Reachable oneToken ∧ oneToken.live ⟨0⟩ ∧
    ∃ h1, Canceler.Cancel ⟨0⟩ oneToken = .returns h1 ∧
      Canceler.Cancel ⟨0⟩ h1 = .returns h1 ∧
      cancelSignaled ⟨0⟩ h1 = true ∧
      ∀ n, run (List.replicate (n + 1) (Call.cancel ⟨0⟩)) oneToken
        = .returns h1 :=
  ⟨⟨[.newCanceler], rfl⟩, by decide,
    C4_cancel_idempotent oneToken ⟨[.newCanceler], rfl⟩ ⟨0⟩ (by decide)⟩

/-- C5: in every reachable heap and for every follower `f` of a token that
`NewCanceler` returned, `CancelFollower.Done` returns (it does not panic and does not
block), a second `Done` returns and leaves the heap as the first one left it, the
completion signal is then set (`Wait` returns), and `n + 1` calls of `Done` in a row
leave the heap as a single call does. -/
theorem C5_done_idempotent (h : Heap) (hr : Reachable h) (f : Ptr CancelFollower)
    (hf : h.live ⟨f.addr⟩) :
    ∃ h1, CancelFollower.Done f h = .returns h1 ∧ CancelFollower.Done f h1 = .returns h1 ∧
      doneSignaled ⟨f.addr⟩ h1 = true ∧
      ∀ n, run (List.replicate (n + 1) (Call.done f)) h = .returns h1 := by
  have hwf := Reachable_WF hr
  have hwf1 := Heap.WF_mark h hwf (2 * f.addr + 1)
  have hf0 : f.addr < h.cancelers.length := hf
  have hf1 : (h.mark (2 * f.addr + 1)).live ⟨f.addr⟩ := by
    simpa [Heap.live, Heap.mark] using hf
  have e1 := CancelFollower.Done_eq h hwf f hf0
  have e2 : CancelFollower.Done f (h.mark (2 * f.addr + 1))
      = .returns (h.mark (2 * f.addr + 1)) := by
    rw [CancelFollower.Done_eq _ hwf1 f hf1, Heap.mark_mark]
  have hlen := hwf.1
  refine ⟨h.mark (2 * f.addr + 1), e1, e2, ?_, ?_⟩
  · have hw := Canceler.Wait_closed _ hwf1 ⟨f.addr⟩ hf1
      (Heap.mark_chans_self h _ (by omega))
    simp [doneSignaled, hw]
  · intro n
    simp only [List.replicate_succ, run, Call.exec, e1, Outcome.bind]
    exact run_replicate_fix (.done f) _ e2 n

/-- C5 at the follower of the token of a single `NewCanceler`. -/
theorem C5_done_idempotent_witness :
    Reachable oneToken ∧ oneToken.live ⟨0⟩ ∧
    ∃ h1, CancelFollower.Done ⟨0⟩ oneToken = .returns h1 ∧
      CancelFollower.Done ⟨0⟩ h1 = .returns h1 ∧
      doneSignaled ⟨0⟩ h1 = true ∧
      ∀ n, run (List.replicate (n + 1) (Call.done ⟨0⟩)) oneToken
        = .returns h1 :=
  ⟨⟨[.newCanceler], rfl⟩, by decide,
    C5_done_idempotent oneToken ⟨[.newCanceler], rfl⟩ ⟨0⟩ (by decide)⟩

/-- C6: once `Canceler.Cancel` has returned on a token that `NewCanceler` returned,
then in that heap and in every heap that any sequence of calls (`NewCanceler`,
`Cancel`, `Wait`, `Follower`, `Done`, `CancelFollower.Cancel`, on any tokens) reaches
from it, `CancelFollower.Cancel` returns a channel on which a receive returns at once;
and no such sequence of calls turns any signaled channel into an unsignaled one. -/
theorem C6_cancel_signal_irreversible (h : Heap) (hr : Reachable h) (c : Ptr Canceler)
    (hc : h.live c) (h1 : Heap) (hcan : Canceler.Cancel c h = .returns h1)
    (ks : List Call) (h2 : Heap) (hrun : run ks h1 = .returns h2) :
    (∃ ch, CancelFollower.Cancel ⟨c.addr⟩ h2 = .returns (ch, h2) ∧
      h2.recv ch = .returns () ∧ cancelSignaled ⟨c.addr⟩ h2 = true) ∧
    (∀ ch : Ptr Chan, h1.signaled ch = true → h2.signaled ch = true) := by
  have hwf := Reachable_WF hr
  have hlen := hwf.1
  have e1 := Canceler.Cancel_eq_mark h hwf c hc
  rw [e1] at hcan
  cases hcan
  have hwf1 := Heap.WF_mark h hwf (2 * c.addr)
  have hc1 : (h.mark (2 * c.addr)).live c := by simpa [Heap.live, Heap.mark] using hc
  have hwf2 := run_WF ks _ h2 hwf1 hrun
  have hc2 := run_live ks _ h2 hwf1 hrun c hc1
  have hset : h2.chans[2 * c.addr]? = some { closed := true } :=
    run_chans_mono ks _ h2 hwf1 hrun _
      (Heap.mark_chans_self h _ (by unfold Heap.live at hc; omega))
  refine ⟨⟨⟨2 * c.addr⟩, CancelFollower.Cancel_returns h2 hwf2 ⟨c.addr⟩ hc2, ?_, ?_⟩, ?_⟩
  · simp [Heap.recv, hset]
  · exact (cancelSignaled_iff h2 hwf2 ⟨c.addr⟩ hc2).mpr hset
  · intro ch hch
    rw [Heap.signaled_iff] at hch ⊢
    exact run_chans_mono ks _ h2 hwf1 hrun _ hch

/-- C6 at a fresh token: cancel, then report completion and create another token. -/
theorem C6_cancel_signal_irreversible_witness :
    Reachable oneToken ∧ oneToken.live ⟨0⟩ ∧
    Canceler.Cancel ⟨0⟩ oneToken
      = .returns (oneToken.mark 0) ∧
    run [.done ⟨0⟩, .newCanceler] (oneToken.mark 0)
      = .returns (NewCanceler ((oneToken.mark 0).mark 1)).2 ∧
    ((∃ ch, CancelFollower.Cancel ⟨0⟩ (NewCanceler ((oneToken.mark 0).mark 1)).2
        = .returns (ch, (NewCanceler ((oneToken.mark 0).mark 1)).2) ∧
      (NewCanceler ((oneToken.mark 0).mark 1)).2.recv ch = .returns () ∧
      cancelSignaled ⟨0⟩ (NewCanceler ((oneToken.mark 0).mark 1)).2 = true) ∧
    (∀ ch : Ptr Chan, (oneToken.mark 0).signaled ch = true →
      (NewCanceler ((oneToken.mark 0).mark 1)).2.signaled ch = true)) :=
  ⟨⟨[.newCanceler], rfl⟩, by decide, by decide, by decide,
    C6_cancel_signal_irreversible oneToken ⟨[.newCanceler], rfl⟩ ⟨0⟩
      (by decide) _ (by decide) [.done ⟨0⟩, .newCanceler] _ (by decide)⟩

/-- C7: for a token `c` of a reachable heap, `Canceler.Wait` returns exactly when the
done channel of `c` is signaled, and then it leaves the heap unchanged.  On the token
that `NewCanceler` has just created, and after any sequence of calls that holds no
`Done` on that token, `Wait` blocks.  Once `CancelFollower.Done` has returned on the
follower of `c`, then after any further sequence of calls `Wait` returns, and so does
each of `n` calls of `Wait` in a row. -/
theorem C7_wait_iff_done (h : Heap) (hr : Reachable h) (c : Ptr Canceler) (hc : h.live c) :
    ((∃ h1, Canceler.Wait c h = .returns h1) ↔
      ∃ s, h.cancelers[c.addr]? = some s ∧ h.signaled s.done = true) ∧
    (∀ h1, Canceler.Wait c h = .returns h1 → h1 = h) ∧
    Canceler.Wait (NewCanceler h).1 (NewCanceler h).2 = .blocks ∧
    (∀ ks h2, Call.done ⟨(NewCanceler h).1.addr⟩ ∉ ks →
      run ks (NewCanceler h).2 = .returns h2 → Canceler.Wait (NewCanceler h).1 h2 = .blocks) ∧
    (∃ h1, CancelFollower.Done ⟨c.addr⟩ h = .returns h1 ∧
      ∀ ks h2, run ks h1 = .returns h2 →
        Canceler.Wait c h2 = .returns h2 ∧
        ∀ n, run (List.replicate n (Call.wait c)) h2 = .returns h2) := by
  have hwf := Reachable_WF hr
  have hlen := hwf.1
  have hc0 : c.addr < h.cancelers.length := hc
  have hcell := Heap.WF_cancelers h hwf c.addr hc
  obtain ⟨b, hb⟩ := Heap.chan_exists h (2 * c.addr + 1) (by omega)
  have hnew := Heap.WF_new h hwf
  have hfresh : ∀ ks h2, Call.done ⟨(NewCanceler h).1.addr⟩ ∉ ks →
      run ks (NewCanceler h).2 = .returns h2 →
      Canceler.Wait (NewCanceler h).1 h2 = .blocks := by
    intro ks h2 hno hrun
    have hwf2 := run_WF ks _ h2 hnew hrun
    have hl2 := run_live ks _ h2 hnew hrun _ (NewCanceler_live h)
    have hlt : 2 * (NewCanceler h).1.addr + 1 < (NewCanceler h).2.chans.length := by
      have := NewCanceler_live h
      unfold Heap.live at this
      have := hnew.1
      omega
    have hfr := run_chans_frame ks _ h2 hnew hrun (2 * (NewCanceler h).1.addr + 1) hlt
      (by
        intro k hk hm
        cases k with
        | newCanceler => simp [Call.marks] at hm
        | cancel d => simp [Call.marks] at hm; omega
        | wait d => simp [Call.marks] at hm
        | follower d => simp [Call.marks] at hm
        | followerCancel d => simp [Call.marks] at hm
        | done d =>
          simp [Call.marks] at hm
          apply hno
          have : d = ⟨(NewCanceler h).1.addr⟩ := by
            cases d; simp at hm; simp [hm]
          rw [← this]; exact hk)
    rw [(NewCanceler_chans_new h hwf).2] at hfr
    exact Canceler.Wait_open h2 hwf2 _ hl2 hfr
  refine ⟨?_, ?_, hfresh [] _ (by simp) rfl, hfresh, ?_⟩
  · constructor
    · rintro ⟨h1, hw⟩
      refine ⟨_, hcell, ?_⟩
      rw [Heap.signaled_iff]
      simp only [Canceler.nth]
      cases b with
      | true => exact hb
      | false => rw [Canceler.Wait_open h hwf c hc hb] at hw; cases hw
    · rintro ⟨s, hs, hsig⟩
      rw [hcell] at hs
      cases hs
      rw [Heap.signaled_iff] at hsig
      exact ⟨h, Canceler.Wait_closed h hwf c hc hsig⟩
  · intro h1 hw
    cases b with
    | true => rw [Canceler.Wait_closed h hwf c hc hb] at hw; cases hw; rfl
    | false => rw [Canceler.Wait_open h hwf c hc hb] at hw; cases hw
  · refine ⟨_, CancelFollower.Done_eq h hwf ⟨c.addr⟩ hc0, ?_⟩
    intro ks h2 hrun
    have hwf1 := Heap.WF_mark h hwf (2 * c.addr + 1)
    have hc1 : (h.mark (2 * c.addr + 1)).live c := by simpa [Heap.live, Heap.mark] using hc
    have hwf2 := run_WF ks _ h2 hwf1 hrun
    have hc2 := run_live ks _ h2 hwf1 hrun c hc1
    have hset : h2.chans[2 * c.addr + 1]? = some { closed := true } :=
      run_chans_mono ks _ h2 hwf1 hrun _ (Heap.mark_chans_self h _ (by omega))
    have hw := Canceler.Wait_closed h2 hwf2 c hc2 hset
    exact ⟨hw, fun n => run_replicate_fix (.wait c) h2 hw n⟩

/-- C7 at the token of a single `NewCanceler`. -/
theorem C7_wait_iff_done_witness :
    Reachable oneToken ∧ oneToken.live ⟨0⟩ ∧
    ((∃ h1, Canceler.Wait ⟨0⟩ oneToken = .returns h1) ↔
      ∃ s, oneToken.cancelers[(⟨0⟩ : Ptr Canceler).addr]? = some s ∧
        oneToken.signaled s.done = true) ∧
    (∀ h1, Canceler.Wait ⟨0⟩ oneToken = .returns h1 → h1 = oneToken) ∧
    Canceler.Wait (NewCanceler oneToken).1 (NewCanceler oneToken).2 = .blocks ∧
    (∀ ks h2, Call.done ⟨(NewCanceler oneToken).1.addr⟩ ∉ ks →
      run ks (NewCanceler oneToken).2 = .returns h2 →
      Canceler.Wait (NewCanceler oneToken).1 h2 = .blocks) ∧
    (∃ h1, CancelFollower.Done ⟨(⟨0⟩ : Ptr Canceler).addr⟩ oneToken = .returns h1 ∧
      ∀ ks h2, run ks h1 = .returns h2 →
        Canceler.Wait ⟨0⟩ h2 = .returns h2 ∧
        ∀ n, run (List.replicate n (Call.wait ⟨0⟩)) h2 = .returns h2) :=
  ⟨⟨[.newCanceler], rfl⟩, by decide,
    C7_wait_iff_done oneToken ⟨[.newCanceler], rfl⟩ ⟨0⟩ (by decide)⟩

/-- C8: `Canceler.Follower` always returns, returns a pointer to the address of `c`
and leaves the heap as it was.  For a token `c` of a reachable heap the follower reads
the same struct as `c`, a `Cancel` on `c` returns and makes the channel of
`f.Cancel()` signaled, and a `Done` on `f` returns and makes `c.Wait()` return. -/
theorem C8_follower_is_view (h : Heap) (hr : Reachable h) (c : Ptr Canceler)
    (hc : h.live c) :
    ∃ f, Canceler.Follower c h = .returns (f, h) ∧ f.addr = c.addr ∧
      h.cancelers[f.addr]? = h.cancelers[c.addr]? ∧
      (∃ h1, Canceler.Cancel c h = .returns h1 ∧ cancelSignaled f h1 = true ∧
        ∃ ch, CancelFollower.Cancel f h1 = .returns (ch, h1) ∧ h1.recv ch = .returns ()) ∧
      (∃ h1, CancelFollower.Done f h = .returns h1 ∧ Canceler.Wait c h1 = .returns h1) := by
  have hwf := Reachable_WF hr
  have hlen := hwf.1
  have hc0 : c.addr < h.cancelers.length := hc
  refine ⟨⟨c.addr⟩, rfl, rfl, rfl, ?_, ?_⟩
  · have hwf1 := Heap.WF_mark h hwf (2 * c.addr)
    have hc1 : (h.mark (2 * c.addr)).live c := by simpa [Heap.live, Heap.mark] using hc
    have hset := Heap.mark_chans_self h (2 * c.addr) (by omega)
    refine ⟨_, Canceler.Cancel_eq_mark h hwf c hc,
      (cancelSignaled_iff _ hwf1 ⟨c.addr⟩ hc1).mpr hset,
      ⟨2 * c.addr⟩, CancelFollower.Cancel_returns _ hwf1 ⟨c.addr⟩ hc1, ?_⟩
    simp [Heap.recv, hset]
  · have hwf1 := Heap.WF_mark h hwf (2 * c.addr + 1)
    have hc1 : (h.mark (2 * c.addr + 1)).live c := by simpa [Heap.live, Heap.mark] using hc
    exact ⟨_, CancelFollower.Done_eq h hwf ⟨c.addr⟩ hc0,
      Canceler.Wait_closed _ hwf1 c hc1 (Heap.mark_chans_self h _ (by omega))⟩

/-- C8 at the token of a single `NewCanceler`. -/
theorem C8_follower_is_view_witness :
    Reachable oneToken ∧ oneToken.live ⟨0⟩ ∧
    ∃ f, Canceler.Follower ⟨0⟩ oneToken
        = .returns (f, oneToken) ∧ f.addr = 0 ∧
      oneToken.cancelers[f.addr]? = oneToken.cancelers[0]? ∧
      (∃ h1, Canceler.Cancel ⟨0⟩ oneToken = .returns h1 ∧
        cancelSignaled f h1 = true ∧
        ∃ ch, CancelFollower.Cancel f h1 = .returns (ch, h1) ∧ h1.recv ch = .returns ()) ∧
      (∃ h1, CancelFollower.Done f oneToken = .returns h1 ∧
        Canceler.Wait ⟨0⟩ h1 = .returns h1) :=
  ⟨⟨[.newCanceler], rfl⟩, by decide,
    C8_follower_is_view oneToken ⟨[.newCanceler], rfl⟩ ⟨0⟩ (by decide)⟩

/-- C9: for a token `c` of a reachable heap, `Canceler.Cancel` returns and leaves the
completion signal of `c` as it was, and `CancelFollower.Done` returns and leaves the
cancellation signal of `c` as it was.  On the token that `NewCanceler` has just
created, `Done` alone sets the completion signal while the cancellation signal stays
unset, and after `Cancel` alone `Wait` blocks. -/
theorem C9_signals_independent (h : Heap) (hr : Reachable h) (c : Ptr Canceler)
    (hc : h.live c) :
    (∃ h1, Canceler.Cancel c h = .returns h1 ∧ doneSignaled c h1 = doneSignaled c h ∧
      Canceler.Wait c h1 = (Canceler.Wait c h).bind (fun _ => .returns h1)) ∧
    (∃ h1, CancelFollower.Done ⟨c.addr⟩ h = .returns h1 ∧
      cancelSignaled ⟨c.addr⟩ h1 = cancelSignaled ⟨c.addr⟩ h) ∧
    (∃ h1, CancelFollower.Done ⟨(NewCanceler h).1.addr⟩ (NewCanceler h).2 = .returns h1 ∧
      doneSignaled (NewCanceler h).1 h1 = true ∧
      cancelSignaled ⟨(NewCanceler h).1.addr⟩ h1 = false) ∧
    (∃ h1, Canceler.Cancel (NewCanceler h).1 (NewCanceler h).2 = .returns h1 ∧
      Canceler.Wait (NewCanceler h).1 h1 = .blocks) := by
  have hwf := Reachable_WF hr
  have hlen := hwf.1
  have hc0 : c.addr < h.cancelers.length := hc
  have key : ∀ (g : Heap), g.WF → ∀ (d : Ptr Canceler), g.live d →
      (∃ g1, Canceler.Cancel d g = .returns g1 ∧ g1.WF ∧ g1.live d ∧
        g1.chans[2 * d.addr + 1]? = g.chans[2 * d.addr + 1]?) ∧
      (∃ g1, CancelFollower.Done ⟨d.addr⟩ g = .returns g1 ∧ g1.WF ∧ g1.live d ∧
        g1.chans[2 * d.addr]? = g.chans[2 * d.addr]? ∧
        g1.chans[2 * d.addr + 1]? = some { closed := true }) := by
    intro g gwf d hd
    have hd0 : d.addr < g.cancelers.length := hd
    have glen := gwf.1
    constructor
    · exact ⟨_, Canceler.Cancel_eq_mark g gwf d hd, Heap.WF_mark g gwf _,
        by simpa [Heap.live, Heap.mark] using hd,
        Heap.mark_chans_ne g (2 * d.addr) (2 * d.addr + 1) (by omega)⟩
    · exact ⟨_, CancelFollower.Done_eq g gwf ⟨d.addr⟩ hd0, Heap.WF_mark g gwf _,
        by simpa [Heap.live, Heap.mark] using hd,
        Heap.mark_chans_ne g (2 * d.addr + 1) (2 * d.addr) (by omega),
        Heap.mark_chans_self g (2 * d.addr + 1) (by omega)⟩
  obtain ⟨b1, hb1⟩ := Heap.chan_exists h (2 * c.addr + 1) (by omega)
  obtain ⟨b0, hb0⟩ := Heap.chan_exists h (2 * c.addr) (by omega)
  have hnew := Heap.WF_new h hwf
  have hlnew := NewCanceler_live h
  obtain ⟨hn0, hn1⟩ := NewCanceler_chans_new h hwf
  refine ⟨?_, ?_, ?_, ?_⟩
  · obtain ⟨g1, e, gwf, gl, gch⟩ := (key h hwf c hc).1
    refine ⟨g1, e, ?_, ?_⟩
    · rw [doneSignaled_of g1 gwf c gl b1 (by rw [gch, hb1]),
        doneSignaled_of h hwf c hc b1 hb1]
    · cases b1 with
      | true =>
        rw [Canceler.Wait_closed g1 gwf c gl (by rw [gch, hb1]),
          Canceler.Wait_closed h hwf c hc hb1]
        rfl
      | false =>
        rw [Canceler.Wait_open g1 gwf c gl (by rw [gch, hb1]),
          Canceler.Wait_open h hwf c hc hb1]
        rfl
  · obtain ⟨g1, e, gwf, gl, gch, _⟩ := (key h hwf c hc).2
    refine ⟨g1, e, ?_⟩
    rw [cancelSignaled_of g1 gwf ⟨c.addr⟩ gl b0 (by rw [gch, hb0]),
      cancelSignaled_of h hwf ⟨c.addr⟩ hc0 b0 hb0]
  · obtain ⟨g1, e, gwf, gl, gch, gd⟩ := (key _ hnew _ hlnew).2
    refine ⟨g1, e, ?_, ?_⟩
    · exact doneSignaled_of g1 gwf _ gl true gd
    · exact cancelSignaled_of g1 gwf ⟨(NewCanceler h).1.addr⟩ gl false (by rw [gch, hn0])
  · obtain ⟨g1, e, gwf, gl, gch⟩ := (key _ hnew _ hlnew).1
    exact ⟨g1, e, Canceler.Wait_open g1 gwf _ gl (by rw [gch, hn1])⟩

/-- C9 at the token of a single `NewCanceler`. -/
theorem C9_signals_independent_witness :
    Reachable oneToken ∧ oneToken.live ⟨0⟩ ∧
    (∃ h1, Canceler.Cancel ⟨0⟩ oneToken = .returns h1 ∧
      doneSignaled ⟨0⟩ h1 = doneSignaled ⟨0⟩ oneToken ∧
      Canceler.Wait ⟨0⟩ h1 = (Canceler.Wait ⟨0⟩ oneToken).bind (fun _ => .returns h1)) ∧
    (∃ h1, CancelFollower.Done ⟨(⟨0⟩ : Ptr Canceler).addr⟩ oneToken = .returns h1 ∧
      cancelSignaled ⟨(⟨0⟩ : Ptr Canceler).addr⟩ h1
        = cancelSignaled ⟨(⟨0⟩ : Ptr Canceler).addr⟩ oneToken) ∧
    (∃ h1, CancelFollower.Done ⟨(NewCanceler oneToken).1.addr⟩ (NewCanceler oneToken).2
        = .returns h1 ∧
      doneSignaled (NewCanceler oneToken).1 h1 = true ∧
      cancelSignaled ⟨(NewCanceler oneToken).1.addr⟩ h1 = false) ∧
    (∃ h1, Canceler.Cancel (NewCanceler oneToken).1 (NewCanceler oneToken).2 = .returns h1 ∧
      Canceler.Wait (NewCanceler oneToken).1 h1 = .blocks) :=
  ⟨⟨[.newCanceler], rfl⟩, by decide,
    C9_signals_independent oneToken ⟨[.newCanceler], rfl⟩ ⟨0⟩ (by decide)⟩

/-- C3: on a wrapper whose `once` has not run, the first `Close` returns exactly what
the underlying file's close returns, and each of any number `n` of later calls of
`Close` returns nil and leaves the wrapper as the first call left it. -/
theorem C3_first_result_then_nil {ε : Type} (c : CloseOnce ε) (hfresh : c.once.done = false) :
    ∃ c1, c.Close = .returns (c.File.Close.1, c1) ∧
      c1.Close = .returns (none, c1) ∧
      ∀ n, CloseOnce.closeN n c1 = .returns (List.replicate n none, c1) := by
  refine ⟨_, CloseOnce.Close_fresh c hfresh, CloseOnce.Close_done _ rfl, ?_⟩
  intro n
  exact CloseOnce.closeN_done n _ rfl

/-- C3 at a wrapper of a file whose close fails. -/
theorem C3_first_result_then_nil_witness :
    failingWrapper.once.done = false ∧
    ∃ c1, failingWrapper.Close = .returns (failingWrapper.File.Close.1, c1) ∧
      c1.Close = .returns (none, c1) ∧
      ∀ n, CloseOnce.closeN n c1 = .returns (List.replicate n none, c1) :=
  ⟨rfl, C3_first_result_then_nil failingWrapper rfl⟩

/-- C2: on a wrapper whose `once` has not run, `n` calls of `Close` in a row all
return, and they execute the underlying file's close `min n 1` times: not at all for
`n = 0`, once for `n = 1`, and still once for every larger `n`, whatever the close
returned. -/
theorem C2_underlying_close_once {ε : Type} (c : CloseOnce ε) (hfresh : c.once.done = false)
    (n : Nat) :
    ∃ rs c1, CloseOnce.closeN n c = .returns (rs, c1) ∧ rs.length = n ∧
      c1.File.closeCalls = c.File.closeCalls + min n 1 := by
  cases n with
  | zero => exact ⟨[], c, rfl, rfl, rfl⟩
  | succ n =>
    refine ⟨_, _, CloseOnce.closeN_fresh n c hfresh, by simp, ?_⟩
    simp

/-- C2 at five calls on a wrapper of a file whose close fails. -/
theorem C2_underlying_close_once_witness :
    failingWrapper.once.done = false ∧
    ∃ rs c1, CloseOnce.closeN 5 failingWrapper = .returns (rs, c1) ∧ rs.length = 5 ∧
      c1.File.closeCalls = failingWrapper.File.closeCalls + min 5 1 :=
  ⟨rfl, C2_underlying_close_once failingWrapper rfl 5⟩

/-- C1 as stated fails: the close of the wrapped file returns the failure `5`, the
first of two calls of `Close` returns it and the second returns nil. -/
theorem C1_counterexample :
    failingWrapper.once.done = false ∧ failingWrapper.File.Close.1 = some 5 ∧
    ((CloseOnce.closeN 2 failingWrapper).val?.map Prod.fst) = some [some 5, none] ∧
    ¬ (∃ rs c1, CloseOnce.closeN 2 failingWrapper = .returns (rs, c1) ∧
        ∀ r ∈ rs, r = some 5) := by
  refine ⟨rfl, rfl, rfl, ?_⟩
  rintro ⟨rs, c1, hrun, hall⟩
  rw [CloseOnce.closeN_fresh 1 failingWrapper rfl] at hrun
  simp only [Outcome.returns.injEq, Prod.mk.injEq] at hrun
  have := hall none (by rw [← hrun.1]; simp)
  cases this

/-- C1 amended: on a wrapper whose `once` has not run and whose underlying file close
returns the failure `e`, `n + 1` calls of `Close` in a row all return; the first
returns `e` and each later one returns nil. -/
theorem C1_failure_first_call_only {ε : Type} (c : CloseOnce ε)
    (hfresh : c.once.done = false) (e : ε) (he : c.File.Close.1 = some e) (n : Nat) :
    ∃ c1, CloseOnce.closeN (n + 1) c = .returns (some e :: List.replicate n none, c1) := by
  rw [CloseOnce.closeN_fresh n c hfresh]
  simp only [File.Close] at he
  rw [he]
  exact ⟨_, rfl⟩

/-- C1 amended at three calls on a wrapper of a file whose close fails. -/
theorem C1_failure_first_call_only_witness :
    failingWrapper.once.done = false ∧ failingWrapper.File.Close.1 = some 5 ∧
    ∃ c1, CloseOnce.closeN 3 failingWrapper
      = .returns (some 5 :: List.replicate 2 none, c1) :=
  ⟨rfl, rfl, C1_failure_first_call_only failingWrapper rfl 5 rfl 2⟩

/-! ## Helper lemmas: concurrent calls of Close -/

theorem MutexInv_keep {ε : Type} {N : Nat} {mu : Bool} {calls : Fin N → Goroutine ε}
    (hm : MutexInv mu calls) (i : Fin N) (t : Goroutine ε)
    (ht : t.pc.holds = (calls i).pc.holds) :
    MutexInv mu (Function.update calls i t) := by
  have key : ∀ j, ((Function.update calls i t) j).pc.holds = (calls j).pc.holds := by
    intro j
    by_cases hj : j = i
    · subst hj; simp [ht]
    · rw [Function.update_noteq hj]
  unfold MutexInv
  simp only [key]
  exact hm

theorem MutexInv_acquire {ε : Type} {N : Nat} {calls : Fin N → Goroutine ε}
    (hm : MutexInv false calls) (i : Fin N) (t : Goroutine ε) (ht : t.pc.holds = true) :
    MutexInv true (Function.update calls i t) := by
  obtain ⟨h1, _⟩ := hm
  have hno : ∀ j, (calls j).pc.holds = false := by
    intro j
    cases hx : (calls j).pc.holds with
    | false => rfl
    | true => have := h1.mpr ⟨j, hx⟩; cases this
  have honly : ∀ a, ((Function.update calls i t) a).pc.holds = true → a = i := by
    intro a ha
    by_contra hne
    rw [Function.update_noteq hne, hno a] at ha
    cases ha
  refine ⟨⟨fun _ => ⟨i, by simp [ht]⟩, fun _ => rfl⟩, ?_⟩
  intro a b ha hb
  rw [honly a ha, honly b hb]

theorem MutexInv_release {ε : Type} {N : Nat} {calls : Fin N → Goroutine ε}
    (hm : MutexInv true calls) (i : Fin N) (hi : (calls i).pc.holds = true)
    (t : Goroutine ε) (ht : t.pc.holds = false) :
    MutexInv false (Function.update calls i t) := by
  obtain ⟨_, h2⟩ := hm
  have hno : ∀ j, ((Function.update calls i t) j).pc.holds = false := by
    intro j
    by_cases hj : j = i
    · subst hj; simp [ht]
    · rw [Function.update_noteq hj]
      cases hx : (calls j).pc.holds with
      | false => rfl
      | true => exact absurd (h2 j i hx hi) hj
  refine ⟨⟨(fun h => by cases h), ?_⟩, ?_⟩
  · rintro ⟨j, hj⟩
    rw [hno j] at hj
    cases hj
  · intro a b ha _
    rw [hno a] at ha
    cases ha

theorem PhaseA_update {ε : Type} {N : Nat} {c : CloseOnce ε} {F : File ε} {d : Bool}
    {calls : Fin N → Goroutine ε} (h : PhaseA c F d calls) (i : Fin N) (t : Goroutine ε)
    (he : t.err = none) (hp : t.pc = .start ∨ t.pc = .lock ∨ t.pc = .locked) :
    PhaseA c F d (Function.update calls i t) := by
  obtain ⟨hF, hd, hall⟩ := h
  refine ⟨hF, hd, ?_⟩
  intro j
  by_cases hj : j = i
  · subst hj
    rw [Function.update_same]
    exact ⟨he, hp⟩
  · rw [Function.update_noteq hj]
    exact hall j

theorem PhaseA_close {ε : Type} {N : Nat} {c : CloseOnce ε} {F : File ε} {d : Bool}
    {calls : Fin N → Goroutine ε} (h : PhaseA c F d calls) (i : Fin N) :
    PhaseB c F.Close.2 d (Function.update calls i { pc := .ran, err := F.Close.1 }) := by
  obtain ⟨hF, _, hall⟩ := h
  subst hF
  refine ⟨rfl, i, ?_, ?_, ?_, ?_⟩
  · rw [Function.update_same]
  · rw [Function.update_same]; exact Or.inl rfl
  · intro _; rw [Function.update_same]
  · intro j hj
    rw [Function.update_noteq hj]
    refine ⟨(hall j).1, ?_⟩
    rcases (hall j).2 with h | h | h <;> rw [h] <;> decide

theorem PhaseB_update {ε : Type} {N : Nat} {c : CloseOnce ε} {F : File ε} {d : Bool}
    {calls : Fin N → Goroutine ε} (h : PhaseB c F d calls) (i : Fin N) (t : Goroutine ε)
    (d1 : Bool) (he : t.err = (calls i).err) (hp : t.pc ≠ .ran)
    (hw : ((calls i).pc = .ran ∨ (calls i).pc = .unlock ∨ (calls i).pc = .returned) →
      (t.pc = .unlock ∨ t.pc = .returned))
    (hd : d1 = d ∨ d1 = true) (hr : (calls i).pc = .ran → d1 = true) :
    PhaseB c F d1 (Function.update calls i t) := by
  obtain ⟨hF, w, hwe, hwp, hwd, hoth⟩ := h
  refine ⟨hF, w, ?_, ?_, ?_, ?_⟩
  · by_cases hwi : w = i
    · subst hwi; rw [Function.update_same, he]; exact hwe
    · rw [Function.update_noteq hwi]; exact hwe
  · by_cases hwi : w = i
    · subst hwi
      rw [Function.update_same]
      exact Or.inr (hw hwp)
    · rw [Function.update_noteq hwi]; exact hwp
  · intro hd1
    have hdf : d = false := by
      rcases hd with h | h
      · rw [← h]; exact hd1
      · rw [h] at hd1; cases hd1
    by_cases hwi : w = i
    · subst hwi
      have := hr (hwd hdf)
      rw [this] at hd1
      cases hd1
    · rw [Function.update_noteq hwi]; exact hwd hdf
  · intro j hj
    by_cases hji : j = i
    · subst hji
      rw [Function.update_same]
      exact ⟨by rw [he]; exact (hoth j hj).1, hp⟩
    · rw [Function.update_noteq hji]; exact hoth j hj

theorem Conc.Inv_init {ε : Type} (N : Nat) (c : CloseOnce ε) (hfresh : c.once.done = false) :
    Conc.Inv c (Conc.init N c) := by
  refine ⟨⟨⟨(fun h => by cases h), ?_⟩, ?_⟩, Or.inl ⟨rfl, hfresh, ?_⟩⟩
  · rintro ⟨j, hj⟩
    simp [Conc.init, Pc.holds] at hj
  · intro a b ha _
    simp [Conc.init, Pc.holds] at ha
  · intro j
    exact ⟨rfl, Or.inl rfl⟩

theorem Conc.Inv_step {ε : Type} {N : Nat} {c : CloseOnce ε} {s : Conc ε N}
    (hinv : Conc.Inv c s) (i : Fin N) : Conc.Inv c (s.step i) := by
  obtain ⟨hm, hph⟩ := hinv
  cases hpc : (s.calls i).pc with
  | start =>
    cases hd : s.done with
    | true =>
      have e : s.step i =
        { s with
          calls := Function.update s.calls i { s.calls i with pc := .returned } } := by
        simp [Conc.step, hpc, hd]
      rw [e]
      refine ⟨MutexInv_keep hm i _ (by simp [hpc, Pc.holds]), ?_⟩
      rcases hph with hA | hB
      · rw [hA.2.1] at hd; cases hd
      · exact Or.inr (PhaseB_update hB i _ s.done rfl (by simp)
          (by intro h; rw [hpc] at h; simp at h) (Or.inl rfl)
          (by intro h; rw [hpc] at h; cases h))
    | false =>
      have e : s.step i =
        { s with
          calls := Function.update s.calls i { s.calls i with pc := .lock } } := by
        simp [Conc.step, hpc, hd]
      rw [e]
      refine ⟨MutexInv_keep hm i _ (by simp [hpc, Pc.holds]), ?_⟩
      rcases hph with hA | hB
      · exact Or.inl (PhaseA_update hA i _ (hA.2.2 i).1 (Or.inr (Or.inl rfl)))
      · exact Or.inr (PhaseB_update hB i _ s.done rfl (by simp)
          (by intro h; rw [hpc] at h; simp at h) (Or.inl rfl)
          (by intro h; rw [hpc] at h; cases h))
  | lock =>
    cases hmu : s.mu with
    | true =>
      have e : s.step i = s := by simp [Conc.step, hpc, hmu]
      rw [e]
      exact ⟨hm, hph⟩
    | false =>
      have e : s.step i =
        { s with
          mu := true,
          calls := Function.update s.calls i { s.calls i with pc := .locked } } := by
        simp [Conc.step, hpc, hmu]
      rw [e]
      rw [hmu] at hm
      refine ⟨MutexInv_acquire hm i _ rfl, ?_⟩
      rcases hph with hA | hB
      · exact Or.inl (PhaseA_update hA i _ (hA.2.2 i).1 (Or.inr (Or.inr rfl)))
      · exact Or.inr (PhaseB_update hB i _ s.done rfl (by simp)
          (by intro h; rw [hpc] at h; simp at h) (Or.inl rfl)
          (by intro h; rw [hpc] at h; cases h))
  | locked =>
    cases hd : s.done with
    | true =>
      have e : s.step i =
        { s with
          calls := Function.update s.calls i { s.calls i with pc := .unlock } } := by
        simp [Conc.step, hpc, hd]
      rw [e]
      refine ⟨MutexInv_keep hm i _ (by simp [hpc, Pc.holds]), ?_⟩
      rcases hph with hA | hB
      · rw [hA.2.1] at hd; cases hd
      · exact Or.inr (PhaseB_update hB i _ s.done rfl (by simp)
          (by intro h; rw [hpc] at h; simp at h) (Or.inl rfl)
          (by intro h; rw [hpc] at h; cases h))
    | false =>
      have e : s.step i =
        { s with
          File := s.File.Close.2,
          calls := Function.update s.calls i { pc := .ran, err := s.File.Close.1 } } := by
        simp [Conc.step, hpc, hd]
      rw [e]
      refine ⟨MutexInv_keep hm i _ (by simp [hpc, Pc.holds]), ?_⟩
      rcases hph with hA | hB
      · exact Or.inr (PhaseA_close hA i)
      · exfalso
        obtain ⟨_, w, _, _, hwd, _⟩ := hB
        have hw := hwd hd
        have hwi : w = i := hm.2 w i (by rw [hw]; rfl) (by rw [hpc]; rfl)
        rw [hwi, hpc] at hw
        cases hw
  | ran =>
    have e : s.step i =
        { s with
          done := true,
          calls := Function.update s.calls i { s.calls i with pc := .unlock } } := by
      simp [Conc.step, hpc]
    rw [e]
    refine ⟨MutexInv_keep hm i _ (by simp [hpc, Pc.holds]), ?_⟩
    rcases hph with hA | hB
    · exfalso
      rcases (hA.2.2 i).2 with h | h | h <;> rw [hpc] at h <;> cases h
    · exact Or.inr (PhaseB_update hB i _ true rfl (by simp)
        (fun _ => Or.inl rfl) (Or.inr rfl) (fun _ => rfl))
  | unlock =>
    have e : s.step i =
        { s with
          mu := false,
          calls := Function.update s.calls i { s.calls i with pc := .returned } } := by
      simp [Conc.step, hpc]
    rw [e]
    have hi : (s.calls i).pc.holds = true := by rw [hpc]; rfl
    have hmu : s.mu = true := hm.1.mpr ⟨i, hi⟩
    rw [hmu] at hm
    refine ⟨MutexInv_release hm i hi _ rfl, ?_⟩
    rcases hph with hA | hB
    · exfalso
      rcases (hA.2.2 i).2 with h | h | h <;> rw [hpc] at h <;> cases h
    · exact Or.inr (PhaseB_update hB i _ s.done rfl (by simp)
        (fun _ => Or.inr rfl) (Or.inl rfl)
        (by intro h; rw [hpc] at h; cases h))
  | returned =>
    have e : s.step i = s := by simp [Conc.step, hpc]
    rw [e]
    exact ⟨hm, hph⟩

theorem Conc.Inv_run {ε : Type} {N : Nat} {c : CloseOnce ε} (sched : List (Fin N))
    {s : Conc ε N} (hinv : Conc.Inv c s) : Conc.Inv c (s.run sched) := by
  induction sched generalizing s with
  | nil => exact hinv
  | cons i is ih => exact ih (Conc.Inv_step hinv i)

theorem fuel_update {ε : Type} {N : Nat} (calls : Fin N → Goroutine ε) (i : Fin N)
    (t : Goroutine ε) :
    (∑ j, ((Function.update calls i t) j).pc.rank) + (calls i).pc.rank
      = (∑ j, (calls j).pc.rank) + t.pc.rank := by
  have h1 : (fun j => ((Function.update calls i t) j).pc.rank)
      = Function.update (fun j => (calls j).pc.rank) i t.pc.rank := by
    funext j
    by_cases hj : j = i
    · subst hj; simp
    · simp [Function.update_noteq hj]
  rw [h1, Finset.sum_update_of_mem (Finset.mem_univ i), Finset.sdiff_singleton_eq_erase]
  have h2 := Finset.add_sum_erase Finset.univ (fun j => (calls j).pc.rank) (Finset.mem_univ i)
  simp only at h2
  omega

theorem Conc.fuel_lt {ε : Type} {N : Nat} (s s1 : Conc ε N) (i : Fin N) (t : Goroutine ε)
    (hc : s1.calls = Function.update s.calls i t)
    (hlt : t.pc.rank < (s.calls i).pc.rank) : s1.fuel < s.fuel := by
  have := fuel_update s.calls i t
  unfold Conc.fuel
  rw [hc]
  omega

/-- A goroutine that has not returned and does not wait for a locked mutex takes a
step, and the step uses up fuel. -/
theorem Conc.step_fuel {ε : Type} {N : Nat} (s : Conc ε N) (i : Fin N)
    (hnr : (s.calls i).pc ≠ .returned) (hlk : (s.calls i).pc = .lock → s.mu = false) :
    (s.step i).fuel < s.fuel := by
  cases hpc : (s.calls i).pc with
  | start =>
    cases hd : s.done with
    | true =>
      exact Conc.fuel_lt s _ i { s.calls i with pc := .returned }
        (by simp [Conc.step, hpc, hd]) (by simp [hpc, Pc.rank])
    | false =>
      exact Conc.fuel_lt s _ i { s.calls i with pc := .lock }
        (by simp [Conc.step, hpc, hd]) (by simp [hpc, Pc.rank])
  | lock =>
    have hmu := hlk hpc
    exact Conc.fuel_lt s _ i { s.calls i with pc := .locked }
      (by simp [Conc.step, hpc, hmu]) (by simp [hpc, Pc.rank])
  | locked =>
    cases hd : s.done with
    | true =>
      exact Conc.fuel_lt s _ i { s.calls i with pc := .unlock }
        (by simp [Conc.step, hpc, hd]) (by simp [hpc, Pc.rank])
    | false =>
      exact Conc.fuel_lt s _ i { pc := .ran, err := s.File.Close.1 }
        (by simp [Conc.step, hpc, hd]) (by simp [hpc, Pc.rank])
  | ran =>
    exact Conc.fuel_lt s _ i { s.calls i with pc := .unlock }
      (by simp [Conc.step, hpc]) (by simp [hpc, Pc.rank])
  | unlock =>
    exact Conc.fuel_lt s _ i { s.calls i with pc := .returned }
      (by simp [Conc.step, hpc]) (by simp [hpc, Pc.rank])
  | returned => exact absurd hpc hnr

/-- No deadlock: while a call has not returned, some goroutine can take a step. -/
theorem Conc.Inv_progress {ε : Type} {N : Nat} {c : CloseOnce ε} {s : Conc ε N}
    (hinv : Conc.Inv c s) (hnf : ¬ s.finished) : ∃ i, (s.step i).fuel < s.fuel := by
  obtain ⟨hm, _⟩ := hinv
  cases hmu : s.mu with
  | true =>
    obtain ⟨i, hi⟩ := hm.1.mp hmu
    refine ⟨i, Conc.step_fuel s i ?_ ?_⟩
    · intro h; rw [h] at hi; simp [Pc.holds] at hi
    · intro h; rw [h] at hi; simp [Pc.holds] at hi
  | false =>
    unfold Conc.finished at hnf
    push_neg at hnf
    obtain ⟨i, hi⟩ := hnf
    exact ⟨i, Conc.step_fuel s i hi (fun _ => hmu)⟩

/-- Every interleaving can be continued until all the calls have returned. -/
theorem Conc.Inv_completes {ε : Type} {N : Nat} {c : CloseOnce ε} {s : Conc ε N}
    (hinv : Conc.Inv c s) : ∃ more, (s.run more).finished := by
  suffices H : ∀ (n : Nat) (s : Conc ε N), Conc.Inv c s → s.fuel = n →
      ∃ more, (s.run more).finished from H _ s hinv rfl
  intro n
  induction n using Nat.strong_induction_on with
  | _ n ih =>
    intro s hinv hn
    by_cases hf : s.finished
    · exact ⟨[], hf⟩
    · obtain ⟨i, hi⟩ := Conc.Inv_progress hinv hf
      obtain ⟨more, hmore⟩ := ih (s.step i).fuel (by omega) (s.step i) (Conc.Inv_step hinv i) rfl
      exact ⟨i :: more, hmore⟩

/-! ## The claims: concurrent calls of Close -/

/-- C10 as stated fails: two goroutines call `Close` on a wrapper of a file whose
close fails with `5`; in the interleaving in which goroutine 0 runs to its end before
goroutine 1 starts, both calls return, the file was closed once, goroutine 0 returns
the failure and goroutine 1 returns nil. -/
theorem C10_counterexample :
    ((Conc.init 2 failingWrapper).run [0, 0, 0, 0, 0, 1]).finished ∧
    ((Conc.init 2 failingWrapper).run [0, 0, 0, 0, 0, 1]).File.closeCalls = 1 ∧
    (((Conc.init 2 failingWrapper).run [0, 0, 0, 0, 0, 1]).calls 0).err = some 5 ∧
    (((Conc.init 2 failingWrapper).run [0, 0, 0, 0, 0, 1]).calls 1).err = none ∧
    ¬ (∀ i j, (((Conc.init 2 failingWrapper).run [0, 0, 0, 0, 0, 1]).calls i).err =
        (((Conc.init 2 failingWrapper).run [0, 0, 0, 0, 0, 1]).calls j).err) := by
  refine ⟨by decide, by decide, by decide, by decide, ?_⟩
  intro h
  have := h 0 1
  revert this
  decide

/-- C10 amended: `N` goroutines call `Close` on a wrapper whose `once` has not run.
In every interleaving the underlying close is executed at most once; when all the
calls have returned (`N ≥ 1`) it was executed exactly once, one call returns what the
underlying close returned and every other call returns nil, so all calls return the
same outcome when the close succeeded; and every interleaving can be continued until
all the calls have returned. -/
theorem C10_concurrent_close_once {ε : Type} (c : CloseOnce ε)
    (hfresh : c.once.done = false) (N : Nat) (sched : List (Fin N)) :
    ((Conc.init N c).run sched).File.closeCalls ≤ c.File.closeCalls + 1 ∧
    (((Conc.init N c).run sched).finished → 0 < N →
      ((Conc.init N c).run sched).File.closeCalls = c.File.closeCalls + 1 ∧
      (∃ w, (((Conc.init N c).run sched).calls w).err = c.File.Close.1 ∧
        ∀ j, j ≠ w → (((Conc.init N c).run sched).calls j).err = none) ∧
      (c.File.Close.1 = none →
        ∀ i j, (((Conc.init N c).run sched).calls i).err =
          (((Conc.init N c).run sched).calls j).err)) ∧
    ∃ more, (((Conc.init N c).run sched).run more).finished := by
  have hinv : Conc.Inv c ((Conc.init N c).run sched) :=
    Conc.Inv_run sched (Conc.Inv_init N c hfresh)
  generalize (Conc.init N c).run sched = s at hinv
  refine ⟨?_, ?_, Conc.Inv_completes hinv⟩
  · rcases hinv.2 with hA | hB
    · rw [hA.1]; omega
    · rw [hB.1]; simp [File.Close]
  · intro hfin hN
    rcases hinv.2 with hA | hB
    · exfalso
      have h0 := hfin ⟨0, hN⟩
      rcases (hA.2.2 ⟨0, hN⟩).2 with h | h | h <;> rw [h0] at h <;> cases h
    · obtain ⟨hF, w, hwe, _, _, hoth⟩ := hB
      refine ⟨by rw [hF]; simp [File.Close], ⟨w, hwe, fun j hj => (hoth j hj).1⟩, ?_⟩
      intro hnil i j
      have hall : ∀ k, (s.calls k).err = none := by
        intro k
        by_cases hk : k = w
        · rw [hk, hwe, hnil]
        · exact (hoth k hk).1
      rw [hall i, hall j]

/-- C10 amended at two goroutines on a wrapper of a file whose close fails, in the
interleaving in which goroutine 1 asks for the mutex while goroutine 0 holds it; both
calls have returned at its end. -/
theorem C10_concurrent_close_once_witness :
    failingWrapper.once.done = false ∧
    ((Conc.init 2 failingWrapper).run [0, 0, 1, 1, 0, 0, 0, 1, 1, 1]).finished ∧
    ((Conc.init 2 failingWrapper).run [0, 0, 1, 1, 0, 0, 0, 1, 1, 1]).File.closeCalls
      ≤ failingWrapper.File.closeCalls + 1 ∧
    (((Conc.init 2 failingWrapper).run [0, 0, 1, 1, 0, 0, 0, 1, 1, 1]).finished → 0 < 2 →
      ((Conc.init 2 failingWrapper).run [0, 0, 1, 1, 0, 0, 0, 1, 1, 1]).File.closeCalls
        = failingWrapper.File.closeCalls + 1 ∧
      (∃ w, (((Conc.init 2 failingWrapper).run [0, 0, 1, 1, 0, 0, 0, 1, 1, 1]).calls w).err
          = failingWrapper.File.Close.1 ∧
        ∀ j, j ≠ w →
          (((Conc.init 2 failingWrapper).run [0, 0, 1, 1, 0, 0, 0, 1, 1, 1]).calls j).err
            = none) ∧
      (failingWrapper.File.Close.1 = none →
        ∀ i j, (((Conc.init 2 failingWrapper).run [0, 0, 1, 1, 0, 0, 0, 1, 1, 1]).calls i).err =
          (((Conc.init 2 failingWrapper).run [0, 0, 1, 1, 0, 0, 0, 1, 1, 1]).calls j).err)) ∧
    ∃ more,
      (((Conc.init 2 failingWrapper).run [0, 0, 1, 1, 0, 0, 0, 1, 1, 1]).run more).finished :=
  ⟨rfl, by decide,
    C10_concurrent_close_once failingWrapper rfl 2 [0, 0, 1, 1, 0, 0, 0, 1, 1, 1]⟩

end Goport
